import Mathlib

/-!
Verification development for the battery-report extraction engine
(`battery_health.py`).

Modelling conventions: Python strings are `List Char`; Python's
`str.split(sep)`, `str.replace(old, new)` and `str.find`-based slicing are
modelled by `splitOn`, `replace` and `firstSplit` below, which scan for the
first occurrence of a non-empty pattern exactly as CPython does
(left-to-right, non-overlapping).  Code that can raise a Python exception is
modelled with `Except ParseError`; each raise site is mapped to the error
kind the design document assigns to it (IndexError on a missing split result
at a table/section marker becomes `NoTableFound`/`SectionNotFound`, the
`int("")` ValueError becomes `NoDigitsFound`, the fall-through of
`__extract_date` becomes `UnrecognizedDateFormat`, a short battery table
becomes `MalformedBatteryTable`; remaining IndexError/ValueError sites keep
generic names).  Calendar dates are modelled by their day number
(`daysFromCivil`), which makes Python date subtraction integer subtraction
and makes `date + timedelta` truncation `Int.fdiv`; `int()` applied to the
all-digit fragments found in report cells is `natOfDigits`, and the final
`int(total_seconds()/60/60)` truncation is `Nat` division by 3600 (exact for
every magnitude a report can hold).
-/

inductive ParseError where
  | NoTableFound
  | SectionNotFound
  | NoDigitsFound
  | UnrecognizedDateFormat
  | InvalidDate
  | MalformedBatteryTable
  | IndexOutOfRange
  | InvalidNumber
  deriving DecidableEq

deriving instance DecidableEq for Except

/-- Boolean test that `pat` is a leading segment of `s`. -/
def leadsWith : List Char → List Char → Bool
  | [], _ => true
  | _ :: _, [] => false
  | a :: as, b :: bs => a == b && leadsWith as bs

/-- First occurrence of `pat` in `s`, returned as the text strictly before it
and the text strictly after it; `none` when `pat` never occurs. -/
def firstSplit (pat : List Char) : List Char → Option (List Char × List Char)
  | [] => if leadsWith pat [] then some ([], []) else none
  | c :: s =>
    if leadsWith pat (c :: s) then some ([], List.drop pat.length (c :: s))
    else
      match firstSplit pat s with
      | none => none
      | some (pre, post) => some (c :: pre, post)

/-- Substring occurrence (the pattern appears contiguously inside `s`). -/
def occurs (pat s : List Char) : Prop := ∃ a b, s = a ++ pat ++ b

/-- Fuel-indexed worker for `splitOn`; the fuel only bounds the recursion
depth and is irrelevant once it exceeds the length of the string. -/
def splitOnFuel (pat : List Char) : Nat → List Char → List (List Char)
  | 0, s => [s]
  | fuel + 1, s =>
    match firstSplit pat s with
    | none => [s]
    | some (pre, post) => pre :: splitOnFuel pat fuel post

/-- Python `str.split(sep)` for a non-empty separator: cut at every
non-overlapping occurrence, scanning left to right. -/
def splitOn (pat s : List Char) : List (List Char) :=
  if pat = [] then [s] else splitOnFuel pat (s.length + 1) s

/-- Fuel-indexed worker for `replace`. -/
def replaceFuel (pat rep : List Char) : Nat → List Char → List Char
  | 0, s => s
  | fuel + 1, s =>
    match firstSplit pat s with
    | none => s
    | some (pre, post) => pre ++ rep ++ replaceFuel pat rep fuel post

/-- Python `str.replace(old, new)` for a non-empty `old`. -/
def replace (pat rep s : List Char) : List Char :=
  if pat = [] then s else replaceFuel pat rep (s.length + 1) s

/-- Text strictly before the first occurrence of `pat`, or all of `s` when
`pat` does not occur: the value of Python `s.split(pat)[0]`. -/
def upTo (pat s : List Char) : List Char :=
  match firstSplit pat s with
  | none => s
  | some (pre, _) => pre

/-- Text strictly between the first occurrence of `a` and the next occurrence
of `b` after it; this is the reading of the design document's words for the
table and section boundaries, kept for comparison with the code. -/
def betweenFirst (a b s : List Char) : Option (List Char) :=
  match firstSplit a s with
  | none => none
  | some (_, rest) =>
    match firstSplit b rest with
    | none => none
    | some (mid, _) => some mid

def tableOpenTag : List Char := "<table>".toList

def tableCloseTag : List Char := "</table>".toList

def trOpenTag : List Char := "<tr".toList

def trCloseTag : List Char := "</tr>".toList

def tdOpenTag : List Char := "<td".toList

def tdCloseTag : List Char := "</td>".toList

/-- Normalization at the top of `__extract_html_table` (lines 341-344):
remove every space, carriage return and line feed, then the stray
`<trstyle` fragments, in the source's order. -/
def cleanTableText (s : List Char) : List Char :=
  replace "<trstyle".toList []
    (replace "\n".toList [] (replace "\r".toList [] (replace " ".toList [] s)))

/-- Python `s[s.find(">") + 1 :]`: everything after the first `>`, or the
whole string when there is none (`find` returns -1 and the slice keeps all). -/
def afterGt (s : List Char) : List Char :=
  match firstSplit ['>'] s with
  | none => s
  | some (_, post) => post

/-- Model of `__extract_row_data` (lines 364-385): split on `<td`, strip each
fragment through its first `>`, delete `</td>` occurrences, drop the noise
before the first cell. -/
def extract_row_data (row : List Char) : List (List Char) :=
  (List.map (fun d => replace tdCloseTag [] (afterGt d)) (splitOn tdOpenTag row)).drop 1

/-- Lines 347-348 of `__extract_html_table`: the region selected by
`split("<table>")[1].split("</table>")[0]` on the normalized text; the
IndexError when `<table>` never occurs is reported as `NoTableFound`. -/
def tableRegion (html_text : List Char) : Except ParseError (List Char) :=
  match splitOn tableOpenTag (cleanTableText html_text) with
  | _ :: x :: _ => .ok ((splitOn tableCloseTag x).headD [])
  | _ => .error .NoTableFound

/-- Model of `__extract_html_table` (lines 326-361): take the table region,
split it on `<tr`, drop the fragment before the first row, and for each row
strip through the first `>`, cut at `</tr>`, and split the cells. -/
def extract_html_table (html_text : List Char) :
    Except ParseError (List (List (List Char))) :=
  Except.map
    (fun tbl =>
      List.map (fun r => extract_row_data ((splitOn trCloseTag (afterGt r)).headD []))
        ((splitOn trOpenTag tbl).drop 1))
    (tableRegion html_text)

/-- Digit-collection loop of `__str_to_int` (lines 404-407). -/
def digitScan : List Char → List Char
  | [] => []
  | c :: s => if c.isDigit then c :: digitScan s else digitScan s

/-- Value of a decimal digit string, as Python `int` reads an all-digit
string (leading zeros allowed). -/
def natOfDigits (l : List Char) : Nat :=
  l.foldl (fun a c => 10 * a + (c.toNat - 48)) 0

/-- Model of `__str_to_int` (lines 388-411); `int("")` raises ValueError when
the string holds no digit, reported as `NoDigitsFound`. -/
def str_to_int (s : List Char) : Except ParseError Nat :=
  if digitScan s = [] then .error .NoDigitsFound else .ok (natOfDigits (digitScan s))

/-- Total value of `__str_to_int` on a string that does contain a digit. -/
def strToIntVal (s : List Char) : Nat := natOfDigits (digitScan s)

def isLeapYear (y : Nat) : Bool :=
  y % 4 = 0 && (y % 100 ≠ 0 || y % 400 = 0)

def daysInMonth (y m : Nat) : Nat :=
  if m = 2 then (if isLeapYear y then 29 else 28)
  else if m = 4 ∨ m = 6 ∨ m = 9 ∨ m = 11 then 30
  else 31

/-- Day number of a Gregorian date (days since 0000-03-01, the standard
days-from-civil conversion); gives dates the arithmetic model under which
Python date subtraction is integer subtraction of day numbers. -/
def daysFromCivil (y m d : Nat) : Nat :=
  let yAdj := if m ≤ 2 then y - 1 else y
  let era := yAdj / 400
  let yoe := yAdj - era * 400
  let mp := if m ≤ 2 then m + 9 else m - 3
  let doy := (153 * mp + 2) / 5 + (d - 1)
  let doe := yoe * 365 + yoe / 4 - yoe / 100 + doy
  era * 146097 + doe

def digitVal (c : Char) : Nat := c.toNat - 48

/-- Model of `datetime.strptime(text, "%Y-%m-%d").date()` on the report's
zero-padded ISO dates, returning the day number; `none` models the ValueError
on any other shape or an out-of-range component. -/
def parseISODate (s : List Char) : Option Int :=
  match s with
  | [y1, y2, y3, y4, s1, m1, m2, s2, d1, d2] =>
    if y1.isDigit && y2.isDigit && y3.isDigit && y4.isDigit && s1 == '-' &&
        m1.isDigit && m2.isDigit && s2 == '-' && d1.isDigit && d2.isDigit then
      let y := ((digitVal y1 * 10 + digitVal y2) * 10 + digitVal y3) * 10 + digitVal y4
      let m := digitVal m1 * 10 + digitVal m2
      let d := digitVal d1 * 10 + digitVal d2
      if 1 ≤ y ∧ 1 ≤ m ∧ m ≤ 12 ∧ 1 ≤ d ∧ d ≤ daysInMonth y m then
        some (daysFromCivil y m d : Int)
      else none
    else none
  | _ => none

/-- Model of `__extract_date` (lines 414-445).  Dates are day numbers.  The
range branch computes `date_1 + (date_2 - date_1) / 2`, where the timedelta
halving is exact and `date + timedelta` keeps only whole days toward minus
infinity, i.e. `Int.fdiv` of the day span by 2.  The fall-through for other
separator counts raises, reported as `UnrecognizedDateFormat`; a failing
`strptime` is reported as `InvalidDate`. -/
def extract_date (s : List Char) : Except ParseError Int :=
  if s.count '-' = 2 then
    match parseISODate s with
    | some d => .ok d
    | none => .error .InvalidDate
  else if s.count '-' = 5 then
    match parseISODate (s.take 10), parseISODate ((s.drop 11).take 10) with
    | some d1, some d2 => .ok (d1 + Int.fdiv (d2 - d1) 2)
    | _, _ => .error .InvalidDate
  else .error .UnrecognizedDateFormat

def anchorInstalled : List Char := "Installed batteries".toList

def anchorRecentUsage : List Char := "Recent usage".toList

def anchorUsageHistory : List Char := "Usage history".toList

def anchorCapacityHistory : List Char := "Battery capacity history".toList

def anchorLifeEstimates : List Char := "Battery life estimates".toList

/-- Shape of every section selection in the source:
`report.split(openA)[1].split(closeA)[0]`; the IndexError when the opening
anchor is absent is reported as `SectionNotFound`. -/
def sectionSlice (openA closeA report : List Char) : Except ParseError (List Char) :=
  match splitOn openA report with
  | _ :: x :: _ => .ok ((splitOn closeA x).headD [])
  | _ => .error .SectionNotFound

/-- Line 102 of `get_battery_information`. -/
def battery_info_section (report : List Char) : Except ParseError (List Char) :=
  sectionSlice anchorInstalled anchorRecentUsage report

/-- Lines 152-153 of `get_capacity_data`. -/
def capacity_section (report : List Char) : Except ParseError (List Char) :=
  sectionSlice anchorCapacityHistory anchorLifeEstimates report

/-- Lines 187-188 of `get_usage_data`. -/
def usage_section (report : List Char) : Except ParseError (List Char) :=
  sectionSlice anchorUsageHistory anchorCapacityHistory report

structure BatteryInfo where
  battery_count : Int
  names : List (List Char)
  manufacturers : List (List Char)
  serials : List (List Char)
  chemistries : List (List Char)
  design_capacities : List Nat
  actual_capacities : List Nat
  cycles : List Nat
  deriving DecidableEq

/-- Row consumption of `get_battery_information` (lines 105-134): the first
eight rows are header, names, manufacturers, serials, chemistries, design
capacities, actual capacities and cycles; the last three are converted
cell-by-cell with `__str_to_int` after dropping the label cell; fewer than
eight rows raises IndexError, reported as `MalformedBatteryTable`. -/
def batteryInfoFromTable (table : List (List (List Char))) :
    Except ParseError BatteryInfo :=
  match table with
  | r0 :: r1 :: r2 :: r3 :: r4 :: r5 :: r6 :: r7 :: _ => do
    let dc ← (r5.drop 1).mapM str_to_int
    let ac ← (r6.drop 1).mapM str_to_int
    let cy ← (r7.drop 1).mapM str_to_int
    pure ⟨(r0.length : Int) - 1, r1.drop 1, r2.drop 1, r3.drop 1, r4.drop 1, dc, ac, cy⟩
  | _ => .error .MalformedBatteryTable

/-- Model of `get_battery_information` (lines 79-136). -/
def get_battery_information (report : List Char) : Except ParseError BatteryInfo := do
  let sec ← battery_info_section report
  let table ← extract_html_table sec
  batteryInfoFromTable table

/-- Row loop of `get_capacity_data` (lines 159-166): every row past the
header becomes one (date, capacity) point. -/
def capacityRows : List (List (List Char)) → Except ParseError (List Int × List Nat)
  | [] => .ok ([], [])
  | row :: rest =>
    match row.get? 0 with
    | none => .error .IndexOutOfRange
    | some c0 => do
      let d ← extract_date c0
      match row.get? 1 with
      | none => .error .IndexOutOfRange
      | some c1 => do
        let v ← str_to_int c1
        let dv ← capacityRows rest
        pure (d :: dv.1, v :: dv.2)

/-- Model of `get_capacity_data` (lines 139-170). -/
def get_capacity_data (report : List Char) : Except ParseError (List Int × List Nat) := do
  let sec ← capacity_section report
  let table ← extract_html_table sec
  capacityRows (table.drop 1)

/-- Python `int()` on the digit fragments the usage loop feeds it. -/
def parseNatDigits (s : List Char) : Option Nat :=
  if s ≠ [] ∧ s.all Char.isDigit then some (natOfDigits s) else none

/-- Lines 201-204 of `get_usage_data`: split the active-time cell on `:` and
combine hours, minutes and seconds; a missing component raises IndexError and
a non-numeric one raises ValueError. -/
def parseActiveSeconds (cell : List Char) : Except ParseError Nat :=
  match splitOn [':'] cell with
  | t0 :: t1 :: t2 :: _ =>
    match parseNatDigits t0, parseNatDigits t1, parseNatDigits t2 with
    | some h, some m, some s => .ok (s + (m + h * 60) * 60)
    | _, _, _ => .error .InvalidNumber
  | _ => .error .IndexOutOfRange

/-- Row loop of `get_usage_data` (lines 197-214), over the rows after the two
discarded header rows and with the running accumulator in seconds: rows whose
active-time cell has length at most 1 are skipped; parsed rows above the
seven-day bound are skipped; every other row adds its seconds to the
accumulator and emits one (date, truncated cumulative hours) point. -/
def usageRows : List (List (List Char)) → Nat → Except ParseError (List Int × List Nat)
  | [], _ => .ok ([], [])
  | row :: rest, cum =>
    match row.get? 1 with
    | none => .error .IndexOutOfRange
    | some c1 =>
      if 1 < c1.length then
        match parseActiveSeconds c1 with
        | .error e => .error e
        | .ok n =>
          if n ≤ 604800 then
            match row.get? 0 with
            | none => .error .IndexOutOfRange
            | some c0 =>
              match extract_date c0 with
              | .error e => .error e
              | .ok d =>
                match usageRows rest (cum + n) with
                | .error e => .error e
                | .ok dv => .ok (d :: dv.1, (cum + n) / 3600 :: dv.2)
          else usageRows rest cum
      else usageRows rest cum

/-- Model of `get_usage_data` (lines 173-218). -/
def get_usage_data (report : List Char) : Except ParseError (List Int × List Nat) := do
  let sec ← usage_section report
  let table ← extract_html_table sec
  usageRows (table.drop 2) 0

/-- Decides whether the usage loop keeps a row: the active-time cell exists,
has length above 1, parses, and is within the seven-day bound. -/
def keptRow (row : List (List Char)) : Bool :=
  match row.get? 1 with
  | none => false
  | some c1 =>
    decide (1 < c1.length) &&
      match parseActiveSeconds c1 with
      | .ok n => decide (n ≤ 604800)
      | .error _ => false

/-- Seconds a row contributes to the accumulator (0 on a row the loop cannot
parse; such a row makes the loop fail, so the default is never observed). -/
def rowSecs (row : List (List Char)) : Nat :=
  match row.get? 1 with
  | none => 0
  | some c1 =>
    match parseActiveSeconds c1 with
    | .ok n => n
    | .error _ => 0

/-- Cumulative-hours sequence the design document describes: starting from
`cum` seconds, add each row's seconds and emit the running total divided by
3600 with truncation at every emission. -/
def cumHours : Nat → List Nat → List Nat
  | _, [] => []
  | cum, n :: ns => (cum + n) / 3600 :: cumHours (cum + n) ns

/-! ## Lemmas about the string model -/

theorem leadsWith_iff : ∀ (pat s : List Char), leadsWith pat s = true ↔ ∃ t, s = pat ++ t := by
  intro pat
  induction pat with
  | nil => intro s; simp [leadsWith]
  | cons a as ih =>
    intro s
    cases s with
    | nil => simp [leadsWith]
    | cons b bs =>
      simp only [leadsWith, Bool.and_eq_true, beq_iff_eq, ih bs, List.cons_append,
        List.cons.injEq]
      constructor
      · rintro ⟨rfl, t, rfl⟩; exact ⟨t, rfl, rfl⟩
      · rintro ⟨t, rfl, rfl⟩; exact ⟨rfl, t, rfl⟩

theorem firstSplit_decomp : ∀ (pat s pre post : List Char),
    firstSplit pat s = some (pre, post) → s = pre ++ pat ++ post := by
  intro pat s
  induction s with
  | nil =>
    intro pre post h
    by_cases hl : leadsWith pat [] = true
    · obtain ⟨t, ht⟩ := (leadsWith_iff pat []).mp hl
      have hlen := congrArg List.length ht
      simp only [List.length_nil, List.length_append] at hlen
      have hpat : pat = [] := List.length_eq_zero.mp (by omega)
      simp only [firstSplit, if_pos hl, Option.some.injEq, Prod.mk.injEq] at h
      rw [← h.1, ← h.2]
      simp [hpat]
    · simp only [firstSplit, if_neg hl] at h
      exact absurd h (by simp)
  | cons c s ih =>
    intro pre post h
    by_cases hl : leadsWith pat (c :: s) = true
    · obtain ⟨t, ht⟩ := (leadsWith_iff pat (c :: s)).mp hl
      simp only [firstSplit, if_pos hl, Option.some.injEq, Prod.mk.injEq] at h
      rw [← h.1, ← h.2, ht, List.drop_left]
      simp
    · simp only [firstSplit, if_neg hl] at h
      cases hfs : firstSplit pat s with
      | none => rw [hfs] at h; exact absurd h (by simp)
      | some pp =>
        obtain ⟨pre', post'⟩ := pp
        rw [hfs] at h
        simp only [Option.some.injEq, Prod.mk.injEq] at h
        rw [← h.1, ← h.2]
        rw [ih pre' post' hfs]
        simp

theorem occurs_nil (pat : List Char) : occurs pat [] ↔ pat = [] := by
  constructor
  · rintro ⟨a, b, hab⟩
    have hlen := congrArg List.length hab
    simp only [List.length_nil, List.length_append] at hlen
    exact List.length_eq_zero.mp (by omega)
  · rintro rfl; exact ⟨[], [], rfl⟩

theorem occurs_cons (pat : List Char) (c : Char) (s : List Char) :
    occurs pat (c :: s) ↔ (∃ t, c :: s = pat ++ t) ∨ occurs pat s := by
  constructor
  · rintro ⟨a, b, hab⟩
    cases a with
    | nil => exact Or.inl ⟨b, by simpa using hab⟩
    | cons x a' =>
      simp only [List.cons_append, List.cons.injEq] at hab
      exact Or.inr ⟨a', b, hab.2⟩
  · rintro (⟨t, ht⟩ | ⟨a, b, hab⟩)
    · exact ⟨[], t, by simpa using ht⟩
    · exact ⟨c :: a, b, by simp [hab]⟩

theorem firstSplit_none_iff : ∀ (pat s : List Char),
    firstSplit pat s = none ↔ ¬ occurs pat s := by
  intro pat s
  induction s with
  | nil =>
    by_cases hl : leadsWith pat [] = true
    · obtain ⟨t, ht⟩ := (leadsWith_iff pat []).mp hl
      obtain ⟨hpat, -⟩ := List.append_eq_nil.mp ht.symm
      simp only [firstSplit, if_pos hl]
      exact iff_of_false (by simp) (by simp [occurs_nil, hpat])
    · simp only [firstSplit, if_neg hl]
      constructor
      · intro _ hocc
        have hpat := (occurs_nil pat).mp hocc
        subst hpat
        exact hl (by simp [leadsWith])
      · intro _; trivial
  | cons c s ih =>
    by_cases hl : leadsWith pat (c :: s) = true
    · simp only [firstSplit, if_pos hl]
      refine iff_of_false (by simp) ?_
      intro hnocc
      exact hnocc ((occurs_cons pat c s).mpr (Or.inl ((leadsWith_iff pat (c :: s)).mp hl)))
    · simp only [firstSplit, if_neg hl]
      cases hfs : firstSplit pat s with
      | none =>
        refine iff_of_true rfl ?_
        intro hocc
        rcases (occurs_cons pat c s).mp hocc with ⟨t, ht⟩ | hoccs
        · exact hl ((leadsWith_iff pat (c :: s)).mpr ⟨t, ht⟩)
        · exact (ih.mp hfs) hoccs
      | some pp =>
        refine iff_of_false (by simp) ?_
        intro hnocc
        have : firstSplit pat s ≠ none := by simp [hfs]
        apply this
        rw [ih]
        intro hoccs
        exact hnocc ((occurs_cons pat c s).mpr (Or.inr hoccs))

theorem firstSplit_minimal : ∀ (pat s pre post : List Char),
    firstSplit pat s = some (pre, post) →
      ∀ a b, s = a ++ pat ++ b → pre.length ≤ a.length := by
  intro pat s
  induction s with
  | nil =>
    intro pre post h a b hab
    by_cases hl : leadsWith pat [] = true
    · simp only [firstSplit, if_pos hl, Option.some.injEq, Prod.mk.injEq] at h
      rw [← h.1]
      exact Nat.zero_le _
    · simp only [firstSplit, if_neg hl] at h
      exact absurd h (by simp)
  | cons c s ih =>
    intro pre post h a b hab
    by_cases hl : leadsWith pat (c :: s) = true
    · simp only [firstSplit, if_pos hl, Option.some.injEq, Prod.mk.injEq] at h
      rw [← h.1]
      exact Nat.zero_le _
    · simp only [firstSplit, if_neg hl] at h
      cases hfs : firstSplit pat s with
      | none => rw [hfs] at h; exact absurd h (by simp)
      | some pp =>
        obtain ⟨pre', post'⟩ := pp
        rw [hfs] at h
        simp only [Option.some.injEq, Prod.mk.injEq] at h
        cases a with
        | nil =>
          exfalso
          exact hl ((leadsWith_iff pat (c :: s)).mpr ⟨b, by simpa using hab⟩)
        | cons x a' =>
          simp only [List.cons_append, List.cons.injEq] at hab
          have := ih pre' post' hfs a' b hab.2
          rw [← h.1]
          simp only [List.length_cons]
          omega

theorem firstSplit_post_lt (pat : List Char) (hp : pat ≠ []) (s pre post : List Char)
    (h : firstSplit pat s = some (pre, post)) : post.length < s.length := by
  have hd := firstSplit_decomp pat s pre post h
  subst hd
  cases pat with
  | nil => exact absurd rfl hp
  | cons a as => simp only [List.append_assoc, List.length_append, List.length_cons]; omega

theorem splitOnFuel_irrel (pat : List Char) (hp : pat ≠ []) :
    ∀ f₁ f₂ s, s.length < f₁ → s.length < f₂ →
      splitOnFuel pat f₁ s = splitOnFuel pat f₂ s := by
  intro f₁
  induction f₁ with
  | zero => intro f₂ s h1 h2; omega
  | succ f ih =>
    intro f₂ s h1 h2
    cases f₂ with
    | zero => omega
    | succ f' =>
      cases hfs : firstSplit pat s with
      | none =>
        show (match firstSplit pat s with
          | none => [s]
          | some (pre, post) => pre :: splitOnFuel pat f post) =
            match firstSplit pat s with
            | none => [s]
            | some (pre, post) => pre :: splitOnFuel pat f' post
        rw [hfs]
      | some pp =>
        obtain ⟨pre, post⟩ := pp
        have hlt := firstSplit_post_lt pat hp s pre post hfs
        show (match firstSplit pat s with
          | none => [s]
          | some (pre, post) => pre :: splitOnFuel pat f post) =
            match firstSplit pat s with
            | none => [s]
            | some (pre, post) => pre :: splitOnFuel pat f' post
        rw [hfs]
        simp only []
        rw [ih f' post (by omega) (by omega)]

theorem splitOn_eq (pat : List Char) (hp : pat ≠ []) (s : List Char) :
    splitOn pat s =
      match firstSplit pat s with
      | none => [s]
      | some (pre, post) => pre :: splitOn pat post := by
  have h0 : splitOn pat s =
      match firstSplit pat s with
      | none => [s]
      | some (pre, post) => pre :: splitOnFuel pat s.length post := by
    rw [splitOn, if_neg hp]
    simp only [splitOnFuel]
  rw [h0]
  cases hfs : firstSplit pat s with
  | none => rfl
  | some pp =>
    obtain ⟨pre, post⟩ := pp
    have hlt := firstSplit_post_lt pat hp s pre post hfs
    simp only []
    show pre :: splitOnFuel pat s.length post = pre :: splitOn pat post
    rw [splitOn, if_neg hp]
    rw [splitOnFuel_irrel pat hp s.length (post.length + 1) post (by omega) (by omega)]

theorem splitOn_head_cons (pat : List Char) (hp : pat ≠ []) (s : List Char) :
    ∃ l, splitOn pat s = upTo pat s :: l := by
  rw [splitOn_eq pat hp s]
  cases hfs : firstSplit pat s with
  | none => exact ⟨[], by simp [upTo, hfs]⟩
  | some pp =>
    obtain ⟨pre, post⟩ := pp
    exact ⟨splitOn pat post, by simp [upTo, hfs]⟩

theorem headD_splitOn (pat : List Char) (hp : pat ≠ []) (s : List Char) :
    (splitOn pat s).headD [] = upTo pat s := by
  obtain ⟨l, hl⟩ := splitOn_head_cons pat hp s
  rw [hl]
  rfl

theorem mem_of_mem_splitOn_aux (pat : List Char) (hp : pat ≠ []) :
    ∀ (n : Nat) (s : List Char), s.length ≤ n →
      ∀ p ∈ splitOn pat s, ∀ c ∈ p, c ∈ s := by
  intro n
  induction n with
  | zero =>
    intro s hs p hpmem c hc
    have hsnil : s = [] := List.length_eq_zero.mp (Nat.le_zero.mp hs)
    subst hsnil
    rw [splitOn_eq pat hp []] at hpmem
    cases hfs : firstSplit pat [] with
    | none =>
      rw [hfs] at hpmem
      simp only [List.mem_singleton] at hpmem
      subst hpmem
      exact hc
    | some pp =>
      obtain ⟨pre, post⟩ := pp
      have := firstSplit_post_lt pat hp [] pre post hfs
      simp at this
  | succ n ih =>
    intro s hs p hpmem c hc
    rw [splitOn_eq pat hp s] at hpmem
    cases hfs : firstSplit pat s with
    | none =>
      rw [hfs] at hpmem
      simp only [List.mem_singleton] at hpmem
      subst hpmem
      exact hc
    | some pp =>
      obtain ⟨pre, post⟩ := pp
      rw [hfs] at hpmem
      simp only [List.mem_cons] at hpmem
      have hdec := firstSplit_decomp pat s pre post hfs
      have hlt := firstSplit_post_lt pat hp s pre post hfs
      rcases hpmem with rfl | hmem
      · rw [hdec]
        simp only [List.append_assoc, List.mem_append]
        exact Or.inl hc
      · have hcpost := ih post (by omega) p hmem c hc
        rw [hdec]
        simp only [List.append_assoc, List.mem_append]
        exact Or.inr (Or.inr hcpost)

theorem mem_of_mem_splitOn (pat : List Char) (hp : pat ≠ []) (s p : List Char)
    (hpmem : p ∈ splitOn pat s) {c : Char} (hc : c ∈ p) : c ∈ s :=
  mem_of_mem_splitOn_aux pat hp s.length s le_rfl p hpmem c hc

theorem mem_headD_splitOn (pat : List Char) (hp : pat ≠ []) (s : List Char) {c : Char}
    (h : c ∈ (splitOn pat s).headD []) : c ∈ s := by
  obtain ⟨l, hl⟩ := splitOn_head_cons pat hp s
  rw [hl, List.headD_cons] at h
  exact mem_of_mem_splitOn pat hp s _ (by rw [hl]; exact List.mem_cons_self _ _) h

theorem replaceFuel_irrel (pat rep : List Char) (hp : pat ≠ []) :
    ∀ f₁ f₂ s, s.length < f₁ → s.length < f₂ →
      replaceFuel pat rep f₁ s = replaceFuel pat rep f₂ s := by
  intro f₁
  induction f₁ with
  | zero => intro f₂ s h1 h2; omega
  | succ f ih =>
    intro f₂ s h1 h2
    cases f₂ with
    | zero => omega
    | succ f' =>
      cases hfs : firstSplit pat s with
      | none =>
        show (match firstSplit pat s with
          | none => s
          | some (pre, post) => pre ++ rep ++ replaceFuel pat rep f post) =
            match firstSplit pat s with
            | none => s
            | some (pre, post) => pre ++ rep ++ replaceFuel pat rep f' post
        rw [hfs]
      | some pp =>
        obtain ⟨pre, post⟩ := pp
        have hlt := firstSplit_post_lt pat hp s pre post hfs
        show (match firstSplit pat s with
          | none => s
          | some (pre, post) => pre ++ rep ++ replaceFuel pat rep f post) =
            match firstSplit pat s with
            | none => s
            | some (pre, post) => pre ++ rep ++ replaceFuel pat rep f' post
        rw [hfs]
        simp only []
        rw [ih f' post (by omega) (by omega)]

theorem replace_eq (pat rep : List Char) (hp : pat ≠ []) (s : List Char) :
    replace pat rep s =
      match firstSplit pat s with
      | none => s
      | some (pre, post) => pre ++ rep ++ replace pat rep post := by
  have h0 : replace pat rep s =
      match firstSplit pat s with
      | none => s
      | some (pre, post) => pre ++ rep ++ replaceFuel pat rep s.length post := by
    rw [replace, if_neg hp]
    simp only [replaceFuel]
  rw [h0]
  cases hfs : firstSplit pat s with
  | none => rfl
  | some pp =>
    obtain ⟨pre, post⟩ := pp
    have hlt := firstSplit_post_lt pat hp s pre post hfs
    simp only []
    show pre ++ rep ++ replaceFuel pat rep s.length post = pre ++ rep ++ replace pat rep post
    rw [replace, if_neg hp]
    rw [replaceFuel_irrel pat rep hp s.length (post.length + 1) post (by omega) (by omega)]

theorem mem_replace_aux (pat rep : List Char) :
    ∀ (n : Nat) (s : List Char), s.length ≤ n →
      ∀ c ∈ replace pat rep s, c ∈ s ∨ c ∈ rep := by
  intro n
  induction n with
  | zero =>
    intro s hs c hc
    have hsnil : s = [] := List.length_eq_zero.mp (Nat.le_zero.mp hs)
    subst hsnil
    by_cases hp : pat = []
    · simp only [replace, if_pos hp] at hc
      exact Or.inl hc
    · rw [replace_eq pat rep hp []] at hc
      cases hfs : firstSplit pat [] with
      | none => rw [hfs] at hc; exact Or.inl hc
      | some pp =>
        obtain ⟨pre, post⟩ := pp
        have := firstSplit_post_lt pat hp [] pre post hfs
        simp at this
  | succ n ih =>
    intro s hs c hc
    by_cases hp : pat = []
    · simp only [replace, if_pos hp] at hc
      exact Or.inl hc
    · rw [replace_eq pat rep hp s] at hc
      cases hfs : firstSplit pat s with
      | none => rw [hfs] at hc; exact Or.inl hc
      | some pp =>
        obtain ⟨pre, post⟩ := pp
        rw [hfs] at hc
        have hdec := firstSplit_decomp pat s pre post hfs
        have hlt := firstSplit_post_lt pat hp s pre post hfs
        simp only [List.append_assoc, List.mem_append] at hc
        rcases hc with hc | hc | hc
        · exact Or.inl (by rw [hdec]; simp only [List.append_assoc, List.mem_append]; exact Or.inl hc)
        · exact Or.inr hc
        · rcases ih post (by omega) c hc with h | h
          · exact Or.inl (by rw [hdec]; simp only [List.append_assoc, List.mem_append]; exact Or.inr (Or.inr h))
          · exact Or.inr h

theorem mem_replace (pat rep s : List Char) {c : Char} (h : c ∈ replace pat rep s) :
    c ∈ s ∨ c ∈ rep :=
  mem_replace_aux pat rep s.length s le_rfl c h

theorem mem_replace_nil (pat s : List Char) {c : Char} (h : c ∈ replace pat [] s) :
    c ∈ s := by
  rcases mem_replace pat [] s h with h | h
  · exact h
  · simp at h

theorem occurs_singleton (a : Char) (s : List Char) : occurs [a] s ↔ a ∈ s := by
  constructor
  · rintro ⟨x, y, rfl⟩
    simp
  · intro h
    obtain ⟨x, y, rfl⟩ := List.append_of_mem h
    exact ⟨x, y, by simp⟩

theorem not_mem_firstSplit_pre (a : Char) (s pre post : List Char)
    (h : firstSplit [a] s = some (pre, post)) : a ∉ pre := by
  intro hmem
  obtain ⟨x, y, hxy⟩ := List.append_of_mem hmem
  have hdec := firstSplit_decomp [a] s pre post h
  have hmin := firstSplit_minimal [a] s pre post h x (y ++ [a] ++ post)
    (by rw [hdec, hxy]; simp)
  have : pre.length = x.length + 1 + y.length := by
    rw [hxy]
    simp [List.length_append]
    omega
  omega

theorem not_mem_replace_single_aux (a : Char) :
    ∀ (n : Nat) (s : List Char), s.length ≤ n → a ∉ replace [a] [] s := by
  intro n
  induction n with
  | zero =>
    intro s hs
    have hsnil : s = [] := List.length_eq_zero.mp (Nat.le_zero.mp hs)
    subst hsnil
    rw [replace_eq [a] [] (by simp) []]
    cases hfs : firstSplit [a] [] with
    | none => simp
    | some pp =>
      obtain ⟨pre, post⟩ := pp
      have := firstSplit_post_lt [a] (by simp) [] pre post hfs
      simp at this
  | succ n ih =>
    intro s hs
    rw [replace_eq [a] [] (by simp) s]
    cases hfs : firstSplit [a] s with
    | none =>
      simp only []
      intro hmem
      have hnocc := (firstSplit_none_iff [a] s).mp hfs
      exact hnocc ((occurs_singleton a s).mpr hmem)
    | some pp =>
      obtain ⟨pre, post⟩ := pp
      have hlt := firstSplit_post_lt [a] (by simp) s pre post hfs
      simp only [List.append_nil, List.mem_append]
      rintro (hmem | hmem)
      · exact not_mem_firstSplit_pre a s pre post hfs hmem
      · exact ih post (by omega) hmem

theorem not_mem_replace_single (a : Char) (s : List Char) : a ∉ replace [a] [] s :=
  not_mem_replace_single_aux a s.length s le_rfl

theorem not_space_cleanTableText (s : List Char) : ' ' ∉ cleanTableText s := by
  intro h
  have h1 := mem_replace_nil "<trstyle".toList _ h
  have h2 := mem_replace_nil "\n".toList _ h1
  have h3 := mem_replace_nil "\r".toList _ h2
  exact not_mem_replace_single ' ' s h3

theorem not_cr_cleanTableText (s : List Char) : '\r' ∉ cleanTableText s := by
  intro h
  have h1 := mem_replace_nil "<trstyle".toList _ h
  have h2 := mem_replace_nil "\n".toList _ h1
  exact not_mem_replace_single '\r' _ h2

theorem not_lf_cleanTableText (s : List Char) : '\n' ∉ cleanTableText s := by
  intro h
  have h1 := mem_replace_nil "<trstyle".toList _ h
  exact not_mem_replace_single '\n' _ h1

theorem mem_afterGt (s : List Char) {c : Char} (h : c ∈ afterGt s) : c ∈ s := by
  unfold afterGt at h
  cases hfs : firstSplit ['>'] s with
  | none => rw [hfs] at h; exact h
  | some pp =>
    obtain ⟨pre, post⟩ := pp
    rw [hfs] at h
    rw [firstSplit_decomp ['>'] s pre post hfs]
    simp only [List.append_assoc, List.mem_append]
    exact Or.inr (Or.inr h)

theorem mem_cell_row (row cell : List Char) (hcell : cell ∈ extract_row_data row)
    {c : Char} (hc : c ∈ cell) : c ∈ row := by
  unfold extract_row_data at hcell
  have h1 := List.mem_of_mem_drop hcell
  obtain ⟨d, hd, rfl⟩ := List.mem_map.mp h1
  have h2 := mem_replace_nil tdCloseTag _ hc
  have h3 := mem_afterGt d h2
  exact mem_of_mem_splitOn tdOpenTag (by decide) row d hd h3

theorem mem_region_clean (s reg : List Char) (h : tableRegion s = .ok reg)
    {c : Char} (hc : c ∈ reg) : c ∈ cleanTableText s := by
  unfold tableRegion at h
  cases hsp : splitOn tableOpenTag (cleanTableText s) with
  | nil => rw [hsp] at h; exact absurd h (by simp)
  | cons a l =>
    cases l with
    | nil => rw [hsp] at h; exact absurd h (by simp)
    | cons x l' =>
      rw [hsp] at h
      simp only [Except.ok.injEq] at h
      subst h
      have hcx : c ∈ x := mem_headD_splitOn tableCloseTag (by decide) x hc
      exact mem_of_mem_splitOn tableOpenTag (by decide) _ x (by rw [hsp]; simp) hcx

theorem mem_cell_clean (s : List Char) (tbl : List (List (List Char)))
    (h : extract_html_table s = .ok tbl) (row : List (List Char)) (hrow : row ∈ tbl)
    (cell : List Char) (hcell : cell ∈ row) {c : Char} (hc : c ∈ cell) :
    c ∈ cleanTableText s := by
  unfold extract_html_table at h
  cases hreg : tableRegion s with
  | error e => rw [hreg] at h; exact absurd h (by simp [Except.map])
  | ok reg =>
    rw [hreg] at h
    simp only [Except.map, Except.ok.injEq] at h
    subst h
    obtain ⟨r, hr, rfl⟩ := List.mem_map.mp hrow
    have hc1 : c ∈ (splitOn trCloseTag (afterGt r)).headD [] :=
      mem_cell_row _ cell hcell hc
    have hc2 : c ∈ afterGt r := mem_headD_splitOn trCloseTag (by decide) _ hc1
    have hc3 : c ∈ r := mem_afterGt r hc2
    have hr' : r ∈ splitOn trOpenTag reg := List.mem_of_mem_drop hr
    have hc4 : c ∈ reg := mem_of_mem_splitOn trOpenTag (by decide) reg r hr' hc3
    exact mem_region_clean s reg hreg hc4

/-! ## Scalar extractor claims -/

theorem digitScan_eq_filter : ∀ s : List Char,
    digitScan s = List.filter (fun c => c.isDigit) s := by
  intro s
  induction s with
  | nil => rfl
  | cons c s ih =>
    by_cases h : c.isDigit
    · simp [digitScan, List.filter_cons, h, ih]
    · simp [digitScan, List.filter_cons, h, ih]

theorem digitScan_eq_nil_iff (s : List Char) :
    digitScan s = [] ↔ ∀ c ∈ s, c.isDigit = false := by
  rw [digitScan_eq_filter]
  simp [List.filter_eq_nil_iff]

/-- Claim C3 (confirmed): on any input whose dash count is neither 2 nor 5,
`__extract_date` falls through both branches and fails; the design document
names this failure `UnrecognizedDateFormat`. -/
theorem C3_unrecognized_separator_count (s : List Char)
    (h2 : s.count '-' ≠ 2) (h5 : s.count '-' ≠ 5) :
    extract_date s = .error .UnrecognizedDateFormat := by
  unfold extract_date
  rw [if_neg h2, if_neg h5]

/-- Witness for C3 at a dash-free input. -/
theorem C3_unrecognized_separator_count_witness :
    extract_date "June 20 2021".toList = .error .UnrecognizedDateFormat :=
  C3_unrecognized_separator_count _ (by decide) (by decide)

/-- Claim C2 (confirmed): on any input with exactly 5 dashes whose first ten
characters and characters 11-20 both parse as dates (the character at index
10 being ignored), `__extract_date` returns the first date plus half the day
span, truncated toward minus infinity. -/
theorem C2_range_date_midpoint (s : List Char) (d1 d2 : Int)
    (hc : s.count '-' = 5)
    (h1 : parseISODate (s.take 10) = some d1)
    (h2 : parseISODate ((s.drop 11).take 10) = some d2) :
    extract_date s = .ok (d1 + Int.fdiv (d2 - d1) 2) := by
  unfold extract_date
  rw [hc]
  norm_num
  rw [h1, h2]

/-- Witness for C2: the report range form built from 2018-01-05 and
2018-01-07 yields exactly 2018-01-06. -/
theorem C2_range_date_midpoint_witness :
    "2018-01-05-2018-01-07".toList.count '-' = 5 ∧
    extract_date "2018-01-05-2018-01-07".toList = .ok ((daysFromCivil 2018 1 6 : Nat) : Int) ∧
    parseISODate "2018-01-06".toList = some ((daysFromCivil 2018 1 6 : Nat) : Int) := by
  refine ⟨by decide, ?_, by decide⟩
  have h := C2_range_date_midpoint "2018-01-05-2018-01-07".toList
    ((daysFromCivil 2018 1 5 : Nat) : Int) ((daysFromCivil 2018 1 7 : Nat) : Int)
    (by decide) (by decide) (by decide)
  rw [h]
  decide

/-- Claim C4 (confirmed): `__str_to_int` fails exactly when the input has no
decimal digit, and on success returns the base-10 value of the digit
characters concatenated in original order (all other characters discarded). -/
theorem C4_digits_to_integer (s : List Char) :
    (str_to_int s = .error .NoDigitsFound ↔ ∀ c ∈ s, c.isDigit = false) ∧
    ∀ n, str_to_int s = .ok n → n = natOfDigits (List.filter (fun c => c.isDigit) s) := by
  constructor
  · unfold str_to_int
    by_cases h : digitScan s = []
    · rw [if_pos h]
      exact iff_of_true rfl ((digitScan_eq_nil_iff s).mp h)
    · rw [if_neg h]
      exact iff_of_false (by simp) (fun hall => h ((digitScan_eq_nil_iff s).mpr hall))
  · intro n hn
    unfold str_to_int at hn
    by_cases h : digitScan s = []
    · rw [if_pos h] at hn
      exact absurd hn (by simp)
    · rw [if_neg h] at hn
      simp only [Except.ok.injEq] at hn
      rw [← hn, digitScan_eq_filter]

/-- Witness for C4 at the documented examples. -/
theorem C4_digits_to_integer_witness :
    str_to_int "0993mWh".toList = .ok 993 ∧
    str_to_int "1.109".toList = .ok 1109 ∧
    str_to_int "abc".toList = .error .NoDigitsFound ∧
    993 = natOfDigits (List.filter (fun c => c.isDigit) "0993mWh".toList) := by
  refine ⟨by decide, by decide, ?_, ?_⟩
  · exact ((C4_digits_to_integer "abc".toList).1).mpr (by decide)
  · exact (C4_digits_to_integer "0993mWh".toList).2 993 (by decide)

/-! ## Tokenizer and section locator claims -/

theorem extract_table_error_iff (s : List Char) (e : ParseError) :
    extract_html_table s = .error e ↔ tableRegion s = .error e := by
  unfold extract_html_table
  cases tableRegion s with
  | error e' => simp [Except.map]
  | ok reg => simp [Except.map]

/-- Claim C1 (corrected): `__extract_html_table` fails with `NoTableFound`
exactly when the normalized fragment lacks the open marker; when the open
marker is present the selected region is the text after its first occurrence,
cut at the next open-marker occurrence (Python `split` semantics) and then at
the first close marker within that segment — the whole remaining text when
the close marker is absent. -/
theorem C1_table_bounds (s : List Char) :
    (extract_html_table s = .error .NoTableFound ↔
      ¬ occurs tableOpenTag (cleanTableText s)) ∧
    ∀ pre rest, firstSplit tableOpenTag (cleanTableText s) = some (pre, rest) →
      tableRegion s = .ok (upTo tableCloseTag (upTo tableOpenTag rest)) := by
  constructor
  · cases hfs : firstSplit tableOpenTag (cleanTableText s) with
    | none =>
      have hsp := splitOn_eq tableOpenTag (by decide) (cleanTableText s)
      simp only [hfs] at hsp
      refine iff_of_true ?_ ((firstSplit_none_iff _ _).mp hfs)
      rw [extract_table_error_iff]
      unfold tableRegion
      rw [hsp]
    | some pp =>
      obtain ⟨pre, rest⟩ := pp
      have hsp := splitOn_eq tableOpenTag (by decide) (cleanTableText s)
      simp only [hfs] at hsp
      obtain ⟨l, hl⟩ := splitOn_head_cons tableOpenTag (by decide) rest
      rw [hl] at hsp
      refine iff_of_false ?_ ?_
      · rw [extract_table_error_iff]
        unfold tableRegion
        rw [hsp]
        simp
      · intro hnocc
        have hn := (firstSplit_none_iff tableOpenTag (cleanTableText s)).mpr hnocc
        rw [hfs] at hn
        exact absurd hn (by simp)
  · intro pre rest hfs
    have hsp := splitOn_eq tableOpenTag (by decide) (cleanTableText s)
    simp only [hfs] at hsp
    obtain ⟨l, hl⟩ := splitOn_head_cons tableOpenTag (by decide) rest
    rw [hl] at hsp
    unfold tableRegion
    rw [hsp]
    simp only []
    rw [headD_splitOn tableCloseTag (by decide)]

/-- Counterexample to C1 as frozen: a fragment with an open marker but no
close marker does not fail (it yields the empty row list), and with a second
open marker before the close marker the region is cut at the second open
marker, not at the close marker the claim names. -/
theorem C1_table_bounds_cex :
    (extract_html_table "<table>x".toList = .ok [] ∧
      firstSplit tableCloseTag (cleanTableText "<table>x".toList) = none) ∧
    (tableRegion "<table>a<table>b</table>".toList = .ok "a".toList ∧
      betweenFirst tableOpenTag tableCloseTag
        (cleanTableText "<table>a<table>b</table>".toList) = some "a<table>b".toList ∧
      "a".toList ≠ "a<table>b".toList) :=
  ⟨⟨by decide, by decide⟩, by decide, by decide, by decide⟩

/-- Witness for the amended C1 on a well-formed fragment. -/
theorem C1_table_bounds_witness :
    tableRegion "<table>r1</table>x".toList =
      .ok (upTo tableCloseTag (upTo tableOpenTag "r1</table>x".toList)) ∧
    upTo tableCloseTag (upTo tableOpenTag "r1</table>x".toList) = "r1".toList := by
  refine ⟨?_, by decide⟩
  exact (C1_table_bounds "<table>r1</table>x".toList).2 [] "r1</table>x".toList (by decide)

theorem sectionSlice_spec (openA closeA doc : List Char) (ho : openA ≠ [])
    (hc : closeA ≠ []) (pre rest : List Char)
    (hfs : firstSplit openA doc = some (pre, rest)) (hone : ¬ occurs openA rest) :
    sectionSlice openA closeA doc = .ok (upTo closeA rest) := by
  have hsp := splitOn_eq openA ho doc
  simp only [hfs] at hsp
  have hrest := (firstSplit_none_iff openA rest).mpr hone
  have hsp2 := splitOn_eq openA ho rest
  simp only [hrest] at hsp2
  rw [hsp2] at hsp
  unfold sectionSlice
  rw [hsp]
  simp only []
  rw [headD_splitOn closeA hc]

/-- Claim C8 (corrected): when an opening anchor's first occurrence is its
only occurrence, the corresponding section is the text from just after that
anchor up to the next occurrence of the closing anchor (all the remaining
text when the closing anchor never occurs after it); with a repeated opening
anchor the code cuts at the anchor's second occurrence instead. -/
theorem C8_section_locator (doc : List Char) :
    (∀ pre rest, firstSplit anchorInstalled doc = some (pre, rest) →
        ¬ occurs anchorInstalled rest →
        battery_info_section doc = .ok (upTo anchorRecentUsage rest)) ∧
    (∀ pre rest, firstSplit anchorUsageHistory doc = some (pre, rest) →
        ¬ occurs anchorUsageHistory rest →
        usage_section doc = .ok (upTo anchorCapacityHistory rest)) ∧
    (∀ pre rest, firstSplit anchorCapacityHistory doc = some (pre, rest) →
        ¬ occurs anchorCapacityHistory rest →
        capacity_section doc = .ok (upTo anchorLifeEstimates rest)) := by
  refine ⟨fun pre rest hfs hone => ?_, fun pre rest hfs hone => ?_,
    fun pre rest hfs hone => ?_⟩
  · exact sectionSlice_spec anchorInstalled anchorRecentUsage doc (by decide) (by decide)
      pre rest hfs hone
  · exact sectionSlice_spec anchorUsageHistory anchorCapacityHistory doc (by decide)
      (by decide) pre rest hfs hone
  · exact sectionSlice_spec anchorCapacityHistory anchorLifeEstimates doc (by decide)
      (by decide) pre rest hfs hone

/-- Counterexample to C8 as frozen: a document holding every anchor phrase in
which "Installed batteries" occurs twice before "Recent usage"; the code cuts
the battery-info section at the second "Installed batteries", not at the next
"Recent usage" the claim names. -/
theorem C8_section_locator_cex :
    battery_info_section ("Installed batteriesAInstalled batteriesBRecent usageC" ++
        "Usage historyDBattery capacity historyEBattery life estimatesF").toList =
      .ok "A".toList ∧
    betweenFirst anchorInstalled anchorRecentUsage
        ("Installed batteriesAInstalled batteriesBRecent usageC" ++
          "Usage historyDBattery capacity historyEBattery life estimatesF").toList =
      some "AInstalled batteriesB".toList ∧
    "A".toList ≠ "AInstalled batteriesB".toList :=
  ⟨by decide, by decide, by decide⟩

/-- Witness for the amended C8 on documents whose opening anchors occur
once. -/
theorem C8_section_locator_witness :
    battery_info_section "xInstalled batteriesAARecent usagez".toList =
      .ok (upTo anchorRecentUsage "AARecent usagez".toList) ∧
    upTo anchorRecentUsage "AARecent usagez".toList = "AA".toList ∧
    usage_section "xUsage historyBBBattery capacity historyz".toList =
      .ok (upTo anchorCapacityHistory "BBBattery capacity historyz".toList) ∧
    upTo anchorCapacityHistory "BBBattery capacity historyz".toList = "BB".toList ∧
    capacity_section "xBattery capacity historyCCBattery life estimatesz".toList =
      .ok (upTo anchorLifeEstimates "CCBattery life estimatesz".toList) ∧
    upTo anchorLifeEstimates "CCBattery life estimatesz".toList = "CC".toList := by
  refine ⟨?_, by decide, ?_, by decide, ?_, by decide⟩
  · exact (C8_section_locator _).1 "x".toList "AARecent usagez".toList (by decide)
      ((firstSplit_none_iff _ _).mp (by decide))
  · exact (C8_section_locator _).2.1 "x".toList "BBBattery capacity historyz".toList
      (by decide) ((firstSplit_none_iff _ _).mp (by decide))
  · exact (C8_section_locator _).2.2 "x".toList "CCBattery life estimatesz".toList
      (by decide) ((firstSplit_none_iff _ _).mp (by decide))

/-! ## Usage series claims -/

theorem usageRows_skip (r : List (List Char)) (rest : List (List (List Char)))
    (cum : Nat) (c1 : List Char) (n : Nat) (hc : r.get? 1 = some c1)
    (hlen : 1 < c1.length) (hpa : parseActiveSeconds c1 = .ok n)
    (hbig : 604800 < n) :
    usageRows (r :: rest) cum = usageRows rest cum := by
  conv_lhs => simp only [usageRows]
  rw [hc]
  simp only [if_pos hlen, hpa, if_neg (show ¬ n ≤ 604800 by omega)]

theorem usageRows_cons_congr (row : List (List Char))
    (rows1 rows2 : List (List (List Char)))
    (h : ∀ cum, usageRows rows1 cum = usageRows rows2 cum) (cum : Nat) :
    usageRows (row :: rows1) cum = usageRows (row :: rows2) cum := by
  simp only [usageRows]
  cases hc1 : row.get? 1 with
  | none => rfl
  | some c1 =>
    simp only []
    by_cases hlen : 1 < c1.length
    · simp only [if_pos hlen]
      cases hpa : parseActiveSeconds c1 with
      | error e => rfl
      | ok n =>
        simp only []
        by_cases hth : n ≤ 604800
        · simp only [if_pos hth]
          cases hc0 : row.get? 0 with
          | none => rfl
          | some c0 =>
            simp only []
            cases hed : extract_date c0 with
            | error e => rfl
            | ok d =>
              simp only []
              rw [h (cum + n)]
        · simp only [if_neg hth]
          exact h cum
    · simp only [if_neg hlen]
      exact h cum

/-- Claim C5 (confirmed): a data row whose parsed active time exceeds the
seven-day bound is dropped from the usage loop entirely — deleting it from
the row list leaves both output sequences and the accumulator unchanged. -/
theorem C5_anomalous_row_dropped (pre post : List (List (List Char)))
    (r : List (List Char)) (c1 : List Char) (n cum : Nat)
    (hc : r.get? 1 = some c1) (hlen : 1 < c1.length)
    (hpa : parseActiveSeconds c1 = .ok n) (hbig : 604800 < n) :
    usageRows (pre ++ r :: post) cum = usageRows (pre ++ post) cum := by
  induction pre generalizing cum with
  | nil =>
    simp only [List.nil_append]
    exact usageRows_skip r post cum c1 n hc hlen hpa hbig
  | cons row pre' ih =>
    simp only [List.cons_append]
    exact usageRows_cons_congr row _ _ ih cum

/-- Witness for C5: the documented "200:00:00" row (720000 seconds) is absent
from both output sequences and does not shift later rows. -/
theorem C5_anomalous_row_dropped_witness :
    usageRows [["2021-06-21".toList, "200:00:00".toList],
        ["2021-06-22".toList, "1:00:00".toList]] 0 =
      usageRows [["2021-06-22".toList, "1:00:00".toList]] 0 ∧
    usageRows [["2021-06-22".toList, "1:00:00".toList]] 0 =
      .ok ([(738268 : Int)], [1]) ∧
    parseActiveSeconds "200:00:00".toList = .ok 720000 := by
  refine ⟨?_, by decide, by decide⟩
  exact C5_anomalous_row_dropped [] [["2021-06-22".toList, "1:00:00".toList]]
    ["2021-06-21".toList, "200:00:00".toList] "200:00:00".toList 720000 0
    (by decide) (by decide) (by decide) (by decide)

theorem usageRows_hours : ∀ (rows : List (List (List Char))) (cum : Nat)
    (ds : List Int) (hs : List Nat), usageRows rows cum = .ok (ds, hs) →
    hs = cumHours cum ((rows.filter keptRow).map rowSecs) := by
  intro rows
  induction rows with
  | nil =>
    intro cum ds hs h
    simp only [usageRows, Except.ok.injEq, Prod.mk.injEq] at h
    rw [← h.2]
    rfl
  | cons row rest ih =>
    intro cum ds hs h
    simp only [usageRows] at h
    cases hc1 : row.get? 1 with
    | none => rw [hc1] at h; exact absurd h (by simp)
    | some c1 =>
      rw [hc1] at h
      simp only [] at h
      by_cases hlen : 1 < c1.length
      · rw [if_pos hlen] at h
        cases hpa : parseActiveSeconds c1 with
        | error e => rw [hpa] at h; exact absurd h (by simp)
        | ok n =>
          rw [hpa] at h
          simp only [] at h
          by_cases hth : n ≤ 604800
          · rw [if_pos hth] at h
            cases hc0 : row.get? 0 with
            | none => rw [hc0] at h; exact absurd h (by simp)
            | some c0 =>
              rw [hc0] at h
              simp only [] at h
              cases hed : extract_date c0 with
              | error e => rw [hed] at h; exact absurd h (by simp)
              | ok d =>
                rw [hed] at h
                simp only [] at h
                cases hur : usageRows rest (cum + n) with
                | error e => rw [hur] at h; exact absurd h (by simp)
                | ok dv =>
                  rw [hur] at h
                  simp only [Except.ok.injEq, Prod.mk.injEq] at h
                  have hkept : keptRow row = true := by
                    unfold keptRow
                    rw [hc1]
                    simp [hpa, hlen, hth]
                  have hsecs : rowSecs row = n := by
                    unfold rowSecs
                    rw [hc1]
                    simp [hpa]
                  rw [List.filter_cons_of_pos hkept, List.map_cons, hsecs, cumHours]
                  rw [← h.2]
                  have := ih (cum + n) dv.1 dv.2 (by rw [hur])
                  rw [this]
          · rw [if_neg hth] at h
            have hkept : ¬ keptRow row = true := by
              unfold keptRow
              rw [hc1]
              simp [hpa, hth]
            rw [List.filter_cons_of_neg hkept]
            exact ih cum ds hs h
      · rw [if_neg hlen] at h
        have hkept : ¬ keptRow row = true := by
          unfold keptRow
          rw [hc1]
          simp [hlen]
        rw [List.filter_cons_of_neg hkept]
        exact ih cum ds hs h

/-- Claim C6 (confirmed): the emitted usage values are the running cumulative
seconds of the kept rows divided by 3600 with truncation applied at every
emission. -/
theorem C6_cumulative_truncation (rows : List (List (List Char))) (cum : Nat)
    (ds : List Int) (hs : List Nat) (h : usageRows rows cum = .ok (ds, hs)) :
    hs = cumHours cum ((rows.filter keptRow).map rowSecs) :=
  usageRows_hours rows cum ds hs h

/-- Witness for C6 at the documented example: "1:00:00", "2:00:00", "0:30:00"
emit cumulative hours [1, 3, 3]. -/
theorem C6_cumulative_truncation_witness :
    usageRows [["2021-06-20".toList, "1:00:00".toList],
        ["2021-06-21".toList, "2:00:00".toList],
        ["2021-06-22".toList, "0:30:00".toList]] 0 =
      .ok ([(738266 : Int), 738267, 738268], [1, 3, 3]) ∧
    [1, 3, 3] = cumHours 0 (((([["2021-06-20".toList, "1:00:00".toList],
        ["2021-06-21".toList, "2:00:00".toList],
        ["2021-06-22".toList, "0:30:00".toList]] :
        List (List (List Char)))).filter keptRow).map rowSecs) := by
  refine ⟨by decide, ?_⟩
  exact C6_cumulative_truncation _ 0 [(738266 : Int), 738267, 738268] [1, 3, 3] (by decide)

theorem cumHours_chain : ∀ (l : List Nat) (cum : Nat),
    List.Chain' (· ≤ ·) (cumHours cum l) := by
  intro l
  induction l with
  | nil => intro cum; simp [cumHours]
  | cons n ns ih =>
    intro cum
    cases ns with
    | nil => simp [cumHours]
    | cons m ms =>
      rw [cumHours, cumHours, List.chain'_cons]
      constructor
      · exact Nat.div_le_div_right (by omega)
      · have := ih (cum + n)
        rw [cumHours] at this
        exact this

/-- Claim C9 (confirmed): whenever the usage loop succeeds, its emitted
values sequence is monotonically non-decreasing. -/
theorem C9_usage_values_monotone (rows : List (List (List Char))) (cum : Nat)
    (ds : List Int) (hs : List Nat) (h : usageRows rows cum = .ok (ds, hs)) :
    List.Chain' (· ≤ ·) hs := by
  rw [usageRows_hours rows cum ds hs h]
  exact cumHours_chain _ cum

/-- Witness for C9 at the documented three-row table. -/
theorem C9_usage_values_monotone_witness :
    List.Chain' (· ≤ ·) [1, 3, 3] :=
  C9_usage_values_monotone [["2021-06-20".toList, "1:00:00".toList],
      ["2021-06-21".toList, "2:00:00".toList],
      ["2021-06-22".toList, "0:30:00".toList]] 0
    [(738266 : Int), 738267, 738268] [1, 3, 3] (by decide)

/-! ## Battery information claims -/

theorem mapM_str_to_int_ok : ∀ (l : List (List Char)),
    (∀ c ∈ l, digitScan c ≠ []) →
    l.mapM str_to_int = Except.ok (l.map strToIntVal) := by
  intro l
  induction l with
  | nil => intro _; rfl
  | cons c cs ih =>
    intro h
    rw [List.mapM_cons, ih (fun x hx => h x (List.mem_cons_of_mem c hx))]
    have hc := h c (List.mem_cons_self c cs)
    unfold str_to_int
    rw [if_neg hc]
    rfl

/-- Claim C7 (confirmed): on a battery table of exactly 8 rows, each of
n + 1 cells, the extractor returns battery count n, the four text rows with
their label cell dropped, the three numeric rows converted cell-by-cell with
`__str_to_int` after dropping the label cell, and all seven column vectors
have length n. -/
theorem C7_battery_info_shape (r0 r1 r2 r3 r4 r5 r6 r7 : List (List Char)) (n : Nat)
    (h0 : r0.length = n + 1) (h1 : r1.length = n + 1) (h2 : r2.length = n + 1)
    (h3 : r3.length = n + 1) (h4 : r4.length = n + 1) (h5 : r5.length = n + 1)
    (h6 : r6.length = n + 1) (h7 : r7.length = n + 1)
    (hd5 : ∀ c ∈ r5.drop 1, digitScan c ≠ [])
    (hd6 : ∀ c ∈ r6.drop 1, digitScan c ≠ [])
    (hd7 : ∀ c ∈ r7.drop 1, digitScan c ≠ []) :
    batteryInfoFromTable [r0, r1, r2, r3, r4, r5, r6, r7] =
      .ok ⟨(n : Int), r1.drop 1, r2.drop 1, r3.drop 1, r4.drop 1,
        (r5.drop 1).map strToIntVal, (r6.drop 1).map strToIntVal,
        (r7.drop 1).map strToIntVal⟩ ∧
    (r1.drop 1).length = n ∧ (r2.drop 1).length = n ∧ (r3.drop 1).length = n ∧
    (r4.drop 1).length = n ∧ ((r5.drop 1).map strToIntVal).length = n ∧
    ((r6.drop 1).map strToIntVal).length = n ∧
    ((r7.drop 1).map strToIntVal).length = n := by
  constructor
  · simp only [batteryInfoFromTable]
    rw [mapM_str_to_int_ok _ hd5, mapM_str_to_int_ok _ hd6, mapM_str_to_int_ok _ hd7]
    simp only [Bind.bind, Except.bind, pure, Except.pure, Except.ok.injEq]
    rw [h0]
    norm_num
  · refine ⟨?_, ?_, ?_, ?_, ?_, ?_, ?_⟩ <;>
      simp [List.length_drop, h1, h2, h3, h4, h5, h6, h7]

/-- Witness for C7: a 4-cell header (one label plus three batteries) gives
battery count 3 and seven column vectors of length 3. -/
theorem C7_battery_info_shape_witness :
    batteryInfoFromTable
      [["BATTERY".toList, "1".toList, "2".toList, "3".toList],
       ["NAME".toList, "n1".toList, "n2".toList, "n3".toList],
       ["MAKER".toList, "m1".toList, "m2".toList, "m3".toList],
       ["SERIAL".toList, "s1".toList, "s2".toList, "s3".toList],
       ["CHEM".toList, "LiP".toList, "LiP".toList, "LiP".toList],
       ["DESIGN".toList, "50,000mWh".toList, "40,000mWh".toList, "30,000mWh".toList],
       ["FULL".toList, "48,000mWh".toList, "39,000mWh".toList, "29,000mWh".toList],
       ["CYCLES".toList, "12".toList, "34".toList, "56".toList]] =
      .ok ⟨3, ["n1".toList, "n2".toList, "n3".toList],
        ["m1".toList, "m2".toList, "m3".toList],
        ["s1".toList, "s2".toList, "s3".toList],
        ["LiP".toList, "LiP".toList, "LiP".toList],
        [50000, 40000, 30000], [48000, 39000, 29000], [12, 34, 56]⟩ := by
  rw [(C7_battery_info_shape
    ["BATTERY".toList, "1".toList, "2".toList, "3".toList]
    ["NAME".toList, "n1".toList, "n2".toList, "n3".toList]
    ["MAKER".toList, "m1".toList, "m2".toList, "m3".toList]
    ["SERIAL".toList, "s1".toList, "s2".toList, "s3".toList]
    ["CHEM".toList, "LiP".toList, "LiP".toList, "LiP".toList]
    ["DESIGN".toList, "50,000mWh".toList, "40,000mWh".toList, "30,000mWh".toList]
    ["FULL".toList, "48,000mWh".toList, "39,000mWh".toList, "29,000mWh".toList]
    ["CYCLES".toList, "12".toList, "34".toList, "56".toList] 3
    (by decide) (by decide) (by decide) (by decide) (by decide) (by decide)
    (by decide) (by decide) (by decide) (by decide) (by decide)).1]
  decide

theorem batteryInfo_text_mem (table : List (List (List Char))) (info : BatteryInfo)
    (h : batteryInfoFromTable table = .ok info) (x : List Char)
    (hx : x ∈ info.names ++ info.manufacturers ++ info.serials ++ info.chemistries) :
    ∃ row ∈ table, x ∈ row := by
  cases table with
  | nil => exact absurd h (by simp [batteryInfoFromTable])
  | cons r0 t0 =>
  cases t0 with
  | nil => exact absurd h (by simp [batteryInfoFromTable])
  | cons r1 t1 =>
  cases t1 with
  | nil => exact absurd h (by simp [batteryInfoFromTable])
  | cons r2 t2 =>
  cases t2 with
  | nil => exact absurd h (by simp [batteryInfoFromTable])
  | cons r3 t3 =>
  cases t3 with
  | nil => exact absurd h (by simp [batteryInfoFromTable])
  | cons r4 t4 =>
  cases t4 with
  | nil => exact absurd h (by simp [batteryInfoFromTable])
  | cons r5 t5 =>
  cases t5 with
  | nil => exact absurd h (by simp [batteryInfoFromTable])
  | cons r6 t6 =>
  cases t6 with
  | nil => exact absurd h (by simp [batteryInfoFromTable])
  | cons r7 rest =>
  simp only [batteryInfoFromTable] at h
  cases hdc : (r5.drop 1).mapM str_to_int with
  | error e => rw [hdc] at h; simp [Bind.bind, Except.bind] at h
  | ok dc =>
  rw [hdc] at h
  cases hac : (r6.drop 1).mapM str_to_int with
  | error e => rw [hac] at h; simp [Bind.bind, Except.bind] at h
  | ok ac =>
  rw [hac] at h
  cases hcy : (r7.drop 1).mapM str_to_int with
  | error e => rw [hcy] at h; simp [Bind.bind, Except.bind] at h
  | ok cy =>
  rw [hcy] at h
  simp only [Bind.bind, Except.bind, pure, Except.pure, Except.ok.injEq] at h
  subst h
  simp only [List.mem_append] at hx
  rcases hx with ((hx | hx) | hx) | hx
  · exact ⟨r1, by simp, List.mem_of_mem_drop hx⟩
  · exact ⟨r2, by simp, List.mem_of_mem_drop hx⟩
  · exact ⟨r3, by simp, List.mem_of_mem_drop hx⟩
  · exact ⟨r4, by simp, List.mem_of_mem_drop hx⟩

/-- Claim C10 (confirmed): every cell the tokenizer produces is free of
spaces, carriage returns and line feeds (normalization removes them inside
cell content too), and hence so is every name, manufacturer, serial and
chemistry string of the battery record set. -/
theorem C10_cells_no_whitespace :
    (∀ s tbl, extract_html_table s = .ok tbl →
        ∀ row ∈ tbl, ∀ cell ∈ row, ' ' ∉ cell ∧ '\r' ∉ cell ∧ '\n' ∉ cell) ∧
    (∀ report info, get_battery_information report = .ok info →
        ∀ x ∈ info.names ++ info.manufacturers ++ info.serials ++ info.chemistries,
          ' ' ∉ x ∧ '\r' ∉ x ∧ '\n' ∉ x) := by
  have hcell : ∀ s tbl, extract_html_table s = .ok tbl →
      ∀ row ∈ tbl, ∀ cell ∈ row, ' ' ∉ cell ∧ '\r' ∉ cell ∧ '\n' ∉ cell := by
    intro s tbl h row hrow cell hc
    exact ⟨fun hm => not_space_cleanTableText s (mem_cell_clean s tbl h row hrow cell hc hm),
      fun hm => not_cr_cleanTableText s (mem_cell_clean s tbl h row hrow cell hc hm),
      fun hm => not_lf_cleanTableText s (mem_cell_clean s tbl h row hrow cell hc hm)⟩
  refine ⟨hcell, ?_⟩
  intro report info h x hx
  unfold get_battery_information at h
  cases hsec : battery_info_section report with
  | error e => rw [hsec] at h; simp [Bind.bind, Except.bind] at h
  | ok sec =>
  rw [hsec] at h
  simp only [Bind.bind, Except.bind] at h
  cases htab : extract_html_table sec with
  | error e => rw [htab] at h; simp at h
  | ok table =>
  rw [htab] at h
  simp only [] at h
  obtain ⟨row, hrowmem, hxrow⟩ := batteryInfo_text_mem table info h x hx
  exact hcell sec table htab row hrowmem x hxrow

/-- Witness for C10: a cell written "a b" in the document comes out as the
separator-free "ab". -/
theorem C10_cells_no_whitespace_witness :
    extract_html_table "<table><tr><td>a b</td></tr></table>".toList =
      .ok [[['a', 'b']]] ∧
    (' ' ∉ ['a', 'b'] ∧ '\r' ∉ ['a', 'b'] ∧ '\n' ∉ ['a', 'b']) := by
  refine ⟨by decide, ?_⟩
  exact C10_cells_no_whitespace.1 "<table><tr><td>a b</td></tr></table>".toList
    [[['a', 'b']]] (by decide) [['a', 'b']] (by decide) ['a', 'b'] (by decide)
